import Mathlib

/-!
Verification of the bin-packing core of `server_asignation_plan`.

The embedded functions mirror `src/script1.py` (feasibility check `can_host`,
greedy packer `ffd`, ordering-search optimizer `best_plan`) and the packer
`first_fit_decreasing` of `src/script.py`.  Resource quantities are Python
floats carrying exact decimal data in the scripts; they are modelled as
rational numbers, so arithmetic and comparisons are exact.  Python's `sorted`
with `reverse=True` is a stable descending sort; it is modelled by
`List.insertionSort` under the total preorder "key not smaller", which places
tied elements in input order, and the stability characterisation is proved
below.  The global random generator feeding `random.sample` in `best_plan` is
deterministic for a fixed seed; the drawn list of extra permutations is made
an explicit `sample` argument of `best_plan`.
-/

attribute [local semireducible] Rat.add Rat.mul Rat.sub Rat.inv

namespace ServerPlan

open scoped List

/-- The five resource dimensions of `RESOURCE_KEYS`
(`["CPU", "Memoria", "Red", "Disco_IO", "Almacenamiento"]`).
The third key of the source is spelled `Disco` here. -/
inductive Res : Type
  | CPU
  | Memoria
  | Red
  | Disco
  | Almacenamiento
deriving DecidableEq

/-- `RESOURCE_KEYS` of both scripts, in source order. -/
def RESOURCE_KEYS : List Res :=
  [Res.CPU, Res.Memoria, Res.Red, Res.Disco, Res.Almacenamiento]

/-- A vector of the five resource quantities: one dict
`{"CPU": _, "Memoria": _, "Red": _, "Disco_IO": _, "Almacenamiento": _}`. -/
structure ResVec where
  cpu : ℚ
  mem : ℚ
  red : ℚ
  disco : ℚ
  alm : ℚ
deriving DecidableEq

/-- Dict lookup `v[k]` for a resource key. -/
def ResVec.get (v : ResVec) : Res → ℚ
  | Res.CPU => v.cpu
  | Res.Memoria => v.mem
  | Res.Red => v.red
  | Res.Disco => v.disco
  | Res.Almacenamiento => v.alm

/-- Dict update `v[k] = q` for a resource key. -/
def ResVec.set (v : ResVec) (k : Res) (q : ℚ) : ResVec :=
  match k with
  | Res.CPU => { v with cpu := q }
  | Res.Memoria => { v with mem := q }
  | Res.Red => { v with red := q }
  | Res.Disco => { v with disco := q }
  | Res.Almacenamiento => { v with alm := q }

/-- One service replica: the dict rows built by `load_instances`, with the
service identifier under `"Servicio"` and one numeric entry per resource key. -/
structure Inst where
  servicio : String
  demand : ResVec
deriving DecidableEq

/-- One server dict as created by the packers: its `"name"`, the five
accumulated resource entries (`usage`), the `"services"` set and the
`"instances"` list. -/
structure Server where
  name : String
  usage : ResVec
  services : Finset String
  instances : List Inst
deriving DecidableEq

/-- `for k in RESOURCE_KEYS: s[k] += inst[k]` — add a demand vector onto a
usage vector, key by key. -/
def addVec (u d : ResVec) : ResVec :=
  RESOURCE_KEYS.foldl (fun acc k => acc.set k (acc.get k + d.get k)) u

/-- `can_host` of `script1.py` lines 66-69 (identical in semantics to
`can_host` of `script.py` lines 49-55): anti-affinity first, then the
capacity test over every resource key. -/
def can_host (server : Server) (inst : Inst) (caps : ResVec) : Bool :=
  if inst.servicio ∈ server.services then false
  else RESOURCE_KEYS.all fun k => decide (server.usage.get k + inst.demand.get k ≤ caps.get k)

/-- Python tuple comparison `a <= b` (lexicographic; a strict prefix is
smaller). -/
def tupleLe : List ℚ → List ℚ → Bool
  | [], _ => true
  | _ :: _, [] => false
  | a :: as, b :: bs => if a < b then true else if b < a then false else tupleLe as bs

/-- The sort key of `ffd`: `tuple(x[r] / caps[r] for r in crit_order)`. -/
def sortKey (caps : ResVec) (crit_order : List Res) (x : Inst) : List ℚ :=
  crit_order.map fun r => x.demand.get r / caps.get r

/-- The ordering used by `sorted(instances, key=..., reverse=True)` in `ffd`:
`a` may precede `b` iff the key of `a` is not lexicographically smaller than
the key of `b`.  Ties leave input order intact (Python's sort is stable). -/
def ffdRel (caps : ResVec) (crit_order : List Res) (a b : Inst) : Prop :=
  tupleLe (sortKey caps crit_order b) (sortKey caps crit_order a) = true

instance (caps : ResVec) (crit_order : List Res) : DecidableRel (ffdRel caps crit_order) :=
  fun _ _ => instDecidableEqBool _ _

/-- `instances_sorted` of `ffd`: the stable descending sort of the replicas
by normalized-demand key under the given dimension ordering. -/
def instances_sorted (instances : List Inst) (caps : ResVec) (crit_order : List Res) : List Inst :=
  List.insertionSort (ffdRel caps crit_order) instances

/-- The mutation performed on the hosting server: `s[k] += inst[k]` for every
resource key, `s["services"].add(...)`, `s["instances"].append(...)`. -/
def hostInst (s : Server) (inst : Inst) : Server :=
  { s with
      usage := addVec s.usage inst.demand,
      services := insert inst.servicio s.services,
      instances := s.instances ++ [inst] }

/-- The inner `for s in servers: if can_host(...)` loop body: place `inst`
on the first admissible server, returning `none` when no server admits it. -/
def assign (caps : ResVec) (inst : Inst) : List Server → Option (List Server)
  | [] => none
  | s :: rest =>
    if can_host s inst caps then some (hostInst s inst :: rest)
    else (assign caps inst rest).map (fun servers => s :: servers)

/-- The `else` branch of the placement loop: a new server seeded with the
replica (name `f"S{len(servers)+1}"`, usage the replica's demand, its
service as sole hosted service). -/
def newServer (idx : ℕ) (inst : Inst) : Server :=
  { name := "S" ++ toString (idx + 1)
    usage := inst.demand
    services := {inst.servicio}
    instances := [inst] }

/-- One iteration of the placement loop of both packers. -/
def place (caps : ResVec) (servers : List Server) (inst : Inst) : List Server :=
  match assign caps inst servers with
  | some updated => updated
  | none => servers ++ [newServer servers.length inst]

/-- `ffd` of `script1.py` lines 72-95: sort by descending normalized demand
under `crit_order`, then first-fit placement. -/
def ffd (instances : List Inst) (caps : ResVec) (crit_order : List Res) : List Server :=
  (instances_sorted instances caps crit_order).foldl (place caps) []

/-- The fixed sort key `(x["CPU"], x["Red"], x["Memoria"])` of
`first_fit_decreasing` in `script.py`. -/
def fitKey (x : Inst) : List ℚ :=
  [x.demand.get Res.CPU, x.demand.get Res.Red, x.demand.get Res.Memoria]

/-- The ordering of `sorted(..., reverse=True)` in `first_fit_decreasing`. -/
def fitRel (a b : Inst) : Prop :=
  tupleLe (fitKey b) (fitKey a) = true

instance : DecidableRel fitRel :=
  fun _ _ => instDecidableEqBool _ _

/-- `first_fit_decreasing` of `script.py` lines 58-78. -/
def first_fit_decreasing (instances : List Inst) (caps : ResVec) : List Server :=
  (List.insertionSort fitRel instances).foldl (place caps) []

/-- Aggregate demand per resource, `demand` of `best_plan`. -/
def total_demand (instances : List Inst) (k : Res) : ℚ :=
  (instances.map fun i => i.demand.get k).sum

/-- `criticity` of `best_plan`: aggregate demand over capacity. -/
def criticity (instances : List Inst) (caps : ResVec) (k : Res) : ℚ :=
  total_demand instances k / caps.get k

/-- `crit_order = sorted(criticity, key=criticity.get, reverse=True)`:
the resource keys in stable descending criticality order. -/
def crit_order (instances : List Inst) (caps : ResVec) : List Res :=
  List.insertionSort
    (fun a b => criticity instances caps b ≤ criticity instances caps a) RESOURCE_KEYS

/-- The tie-break metric of `best_plan` lines 138-139:
`sum(caps[k] - sum(s[k] for s in plan) for k in RESOURCE_KEYS)`. -/
def spare (caps : ResVec) (plan : List Server) : ℚ :=
  (RESOURCE_KEYS.map fun k => caps.get k - (plan.map fun s => s.usage.get k).sum).sum

/-- The comparator body of `best_plan` lines 134-141 for a non-`None`
incumbent: fewer servers wins; on equal count, strictly smaller spare wins;
otherwise the incumbent is kept. -/
def pickPlan (caps : ResVec) (best plan : List Server) : List Server :=
  if plan.length < best.length then plan
  else if plan.length = best.length then
    if spare caps plan < spare caps best then plan else best
  else best

/-- `best_plan` of `script1.py` lines 124-142.  The list of random extra
permutations drawn by `random.sample` is the `sample` argument (it is a
deterministic function of the seed set in `main`). -/
def best_plan (instances : List Inst) (caps : ResVec) (sample : List (List Res)) :
    Option (List Server) :=
  (crit_order instances caps :: sample).foldl
    (fun best order =>
      match best with
      | none => some (ffd instances caps order)
      | some b => some (pickPlan caps b (ffd instances caps order)))
    none

/-! ### Basic lemmas about the embedded operations -/

theorem tupleLe_refl : ∀ a : List ℚ, tupleLe a a = true
  | [] => rfl
  | x :: xs => by simp [tupleLe, lt_irrefl, tupleLe_refl xs]

theorem tupleLe_total : ∀ a b : List ℚ, tupleLe a b = true ∨ tupleLe b a = true
  | [], _ => Or.inl rfl
  | _ :: _, [] => Or.inr rfl
  | x :: xs, y :: ys => by
    rcases lt_trichotomy x y with h | h | h
    · exact Or.inl (by simp [tupleLe, h])
    · subst h
      rcases tupleLe_total xs ys with h' | h'
      · exact Or.inl (by simp [tupleLe, lt_irrefl, h'])
      · exact Or.inr (by simp [tupleLe, lt_irrefl, h'])
    · exact Or.inr (by simp [tupleLe, h])

theorem tupleLe_trans :
    ∀ {a b c : List ℚ}, tupleLe a b = true → tupleLe b c = true → tupleLe a c = true
  | [], _, _, _, _ => rfl
  | _ :: _, [], _, hab, _ => by simp [tupleLe] at hab
  | _ :: _, _ :: _, [], _, hbc => by simp [tupleLe] at hbc
  | x :: xs, y :: ys, z :: zs, hab, hbc => by
    rcases lt_trichotomy x y with hxy | hxy | hxy
    · rcases lt_trichotomy y z with hyz | hyz | hyz
      · simp [tupleLe, lt_trans hxy hyz]
      · subst hyz; simp [tupleLe, hxy]
      · simp [tupleLe, hyz, not_lt.mpr (le_of_lt hyz)] at hbc
    · subst hxy
      rcases lt_trichotomy x z with hyz | hyz | hyz
      · simp [tupleLe, hyz]
      · subst hyz
        simp only [tupleLe, lt_irrefl, if_false] at hab hbc ⊢
        exact tupleLe_trans hab hbc
      · simp [tupleLe, hyz, not_lt.mpr (le_of_lt hyz)] at hbc
    · simp [tupleLe, hxy, not_lt.mpr (le_of_lt hxy)] at hab

/-- Ties in the `ffd` sort key are kept in both directions. -/
theorem tupleLe_of_eq {a b : List ℚ} (h : a = b) : tupleLe a b = true := h ▸ tupleLe_refl a

instance (caps : ResVec) (order : List Res) : IsTotal Inst (ffdRel caps order) :=
  ⟨fun _ _ => (tupleLe_total _ _).symm⟩

instance (caps : ResVec) (order : List Res) : IsTrans Inst (ffdRel caps order) :=
  ⟨fun _ _ _ hab hbc => tupleLe_trans hbc hab⟩

theorem addVec_get (u d : ResVec) (k : Res) : (addVec u d).get k = u.get k + d.get k := by
  cases u; cases d; cases k <;> rfl

/-- Characterisation of the feasibility check `can_host`. -/
theorem can_host_iff (s : Server) (i : Inst) (caps : ResVec) :
    can_host s i caps = true ↔
      i.servicio ∉ s.services ∧
        ∀ k ∈ RESOURCE_KEYS, s.usage.get k + i.demand.get k ≤ caps.get k := by
  by_cases h : i.servicio ∈ s.services <;> simp [can_host, h, List.all_eq_true]

/-- The comparator of `best_plan` always returns one of its two plans. -/
theorem pickPlan_eq_or (caps : ResVec) (b p : List Server) :
    pickPlan caps b p = b ∨ pickPlan caps b p = p := by
  unfold pickPlan
  split_ifs <;> simp

theorem pickPlan_self (caps : ResVec) (b : List Server) : pickPlan caps b b = b := by
  unfold pickPlan
  simp [lt_irrefl]

/-! ### The placement loop -/

theorem assign_mem (caps : ResVec) (i : Inst) :
    ∀ (ss res : List Server), assign caps i ss = some res →
      ∀ s ∈ res, s ∈ ss ∨ ∃ t ∈ ss, can_host t i caps = true ∧ s = hostInst t i
  | [], _, h => by simp [assign] at h
  | t :: rest, res, h => by
    by_cases hch : can_host t i caps
    · rw [assign, if_pos hch] at h
      obtain rfl := Option.some.inj h
      intro s hs
      rcases List.mem_cons.mp hs with rfl | hs'
      · exact Or.inr ⟨t, List.mem_cons_self t rest, hch, rfl⟩
      · exact Or.inl (List.mem_cons_of_mem t hs')
    · rw [assign, if_neg hch] at h
      rcases Option.map_eq_some'.mp h with ⟨res', hres', rfl⟩
      intro s hs
      rcases List.mem_cons.mp hs with rfl | hs'
      · exact Or.inl (List.mem_cons_self s rest)
      · rcases assign_mem caps i rest res' hres' s hs' with h' | ⟨u, hu, hcu, rfl⟩
        · exact Or.inl (List.mem_cons_of_mem t h')
        · exact Or.inr ⟨u, List.mem_cons_of_mem t hu, hcu, rfl⟩

theorem assign_bind (caps : ResVec) (i : Inst) :
    ∀ (ss res : List Server), assign caps i ss = some res →
      res.flatMap Server.instances ~ ss.flatMap Server.instances ++ [i]
  | [], _, h => by simp [assign] at h
  | t :: rest, res, h => by
    by_cases hch : can_host t i caps
    · rw [assign, if_pos hch] at h
      obtain rfl := Option.some.inj h
      simp only [List.flatMap_cons, hostInst]
      calc (t.instances ++ [i]) ++ rest.flatMap Server.instances
          = t.instances ++ ([i] ++ rest.flatMap Server.instances) := by simp
        _ ~ t.instances ++ (rest.flatMap Server.instances ++ [i]) :=
            List.Perm.append_left _ List.perm_append_comm
        _ = (t.instances ++ rest.flatMap Server.instances) ++ [i] := by simp
    · rw [assign, if_neg hch] at h
      rcases Option.map_eq_some'.mp h with ⟨res', hres', rfl⟩
      simp only [List.flatMap_cons, List.append_assoc]
      exact List.Perm.append_left _ (assign_bind caps i rest res' hres')

theorem place_mem (caps : ResVec) (ss : List Server) (i : Inst) :
    ∀ s ∈ place caps ss i,
      s ∈ ss ∨ (∃ t ∈ ss, can_host t i caps = true ∧ s = hostInst t i) ∨
        s = newServer ss.length i := by
  unfold place
  cases hassign : assign caps i ss with
  | none =>
    intro s hs
    rcases List.mem_append.mp hs with h | h
    · exact Or.inl h
    · exact Or.inr (Or.inr (List.mem_singleton.mp h))
  | some res =>
    intro s hs
    rcases assign_mem caps i ss res hassign s hs with h | h
    · exact Or.inl h
    · exact Or.inr (Or.inl h)

theorem place_bind (caps : ResVec) (ss : List Server) (i : Inst) :
    (place caps ss i).flatMap Server.instances ~ ss.flatMap Server.instances ++ [i] := by
  unfold place
  cases hassign : assign caps i ss with
  | none => simp [newServer]
  | some res => exact assign_bind caps i ss res hassign

/-- Invariant engine for the first-fit fold shared by `ffd` and
`first_fit_decreasing`. -/
theorem foldl_place_inv (caps : ResVec) (P : Server → Prop) :
    ∀ (l : List Inst) (acc : List Server),
      (∀ s ∈ acc, P s) →
      (∀ t, P t → ∀ i ∈ l, can_host t i caps = true → P (hostInst t i)) →
      (∀ n : ℕ, ∀ i ∈ l, P (newServer n i)) →
      ∀ s ∈ l.foldl (place caps) acc, P s
  | [], acc, hacc, _, _ => by simpa using hacc
  | i :: t, acc, hacc, hhost, hnew => by
    simp only [List.foldl_cons]
    refine foldl_place_inv caps P t (place caps acc i) ?_ ?_ ?_
    · intro s hs
      rcases place_mem caps acc i s hs with h | ⟨u, hu, hcu, rfl⟩ | rfl
      · exact hacc s h
      · exact hhost u (hacc u hu) i (List.mem_cons_self i t) hcu
      · exact hnew _ i (List.mem_cons_self i t)
    · intro u hu j hj hcj
      exact hhost u hu j (List.mem_cons_of_mem i hj) hcj
    · intro n j hj
      exact hnew n j (List.mem_cons_of_mem i hj)

theorem foldl_place_bind (caps : ResVec) :
    ∀ (l : List Inst) (acc : List Server),
      (l.foldl (place caps) acc).flatMap Server.instances ~ acc.flatMap Server.instances ++ l
  | [], acc => by simp
  | i :: t, acc => by
    simp only [List.foldl_cons]
    calc (t.foldl (place caps) (place caps acc i)).flatMap Server.instances
        ~ (place caps acc i).flatMap Server.instances ++ t := foldl_place_bind caps t _
      _ ~ (acc.flatMap Server.instances ++ [i]) ++ t :=
          List.Perm.append_right t (place_bind caps acc i)
      _ = acc.flatMap Server.instances ++ (i :: t) := by simp

/-- Conservation: the servers of an `ffd` plan hold a permutation of the
input replicas. -/
theorem ffd_bind_perm (instances : List Inst) (caps : ResVec) (order : List Res) :
    (ffd instances caps order).flatMap Server.instances ~ instances := by
  unfold ffd
  calc ((instances_sorted instances caps order).foldl (place caps) []).flatMap Server.instances
      ~ List.flatMap [] Server.instances ++ instances_sorted instances caps order :=
        foldl_place_bind caps _ []
    _ = instances_sorted instances caps order := by simp
    _ ~ instances := List.perm_insertionSort _ _

theorem ffd_mem_instances {instances : List Inst} {caps : ResVec} {order : List Res}
    {s : Server} (hs : s ∈ ffd instances caps order) {i : Inst} (hi : i ∈ s.instances) :
    i ∈ instances :=
  (ffd_bind_perm instances caps order).mem_iff.mp (List.mem_flatMap.mpr ⟨s, hs, hi⟩)

/-! ### Server invariants established by the packers -/

/-- A server's usage entries always equal the sums of the demands of its
assigned replicas. -/
theorem ffd_usage_eq_sum (instances : List Inst) (caps : ResVec) (order : List Res) :
    ∀ s ∈ ffd instances caps order, ∀ k : Res,
      s.usage.get k = (s.instances.map fun i => i.demand.get k).sum := by
  unfold ffd
  refine foldl_place_inv caps
    (fun s => ∀ k, s.usage.get k = (s.instances.map fun i => i.demand.get k).sum)
    _ [] (by simp) ?_ ?_
  · intro t ht i _ _ k
    simp [hostInst, addVec_get, ht k]
  · intro n i _ k
    simp [newServer]

/-- Anti-affinity invariant of `ffd`: hosted service names are exactly the
names of the assigned replicas, and these names are pairwise distinct. -/
theorem ffd_services_inv (instances : List Inst) (caps : ResVec) (order : List Res) :
    ∀ s ∈ ffd instances caps order,
      (s.instances.map Inst.servicio).Nodup ∧
        s.services = (s.instances.map Inst.servicio).toFinset := by
  unfold ffd
  refine foldl_place_inv caps
    (fun s => (s.instances.map Inst.servicio).Nodup ∧
      s.services = (s.instances.map Inst.servicio).toFinset)
    _ [] (by simp) ?_ ?_
  · rintro t ⟨hnd, hsv⟩ i _ hch
    have hnotin : i.servicio ∉ t.services := ((can_host_iff t i caps).mp hch).1
    have hnotmap : i.servicio ∉ t.instances.map Inst.servicio := by
      intro hmem
      exact hnotin (hsv ▸ List.mem_toFinset.mpr hmem)
    constructor
    · have hdisj : ∀ x ∈ t.instances, ¬ x.servicio = i.servicio := by
        intro x hx hxi
        exact hnotmap (List.mem_map.mpr ⟨x, hx, hxi⟩)
      simpa [hostInst, List.nodup_append] using ⟨hnd, hdisj⟩
    · ext a
      simp only [hostInst, hsv, Finset.mem_insert, List.mem_toFinset, List.map_append,
        List.mem_append, List.map_cons, List.map_nil, List.mem_cons, List.not_mem_nil,
        or_false, List.mem_singleton]
      exact or_comm
  · intro n i _
    simp [newServer]

/-- Capacity invariant of `ffd`, under the hypothesis that every replica
individually fits the capacity in every dimension. -/
theorem ffd_capacity_of_fits (instances : List Inst) (caps : ResVec) (order : List Res)
    (hfit : ∀ i ∈ instances, ∀ k ∈ RESOURCE_KEYS, i.demand.get k ≤ caps.get k) :
    ∀ s ∈ ffd instances caps order, ∀ k ∈ RESOURCE_KEYS, s.usage.get k ≤ caps.get k := by
  unfold ffd
  have hfit' : ∀ i ∈ instances_sorted instances caps order,
      ∀ k ∈ RESOURCE_KEYS, i.demand.get k ≤ caps.get k := by
    intro i hi
    exact hfit i ((List.perm_insertionSort _ _).mem_iff.mp hi)
  refine foldl_place_inv caps (fun s => ∀ k ∈ RESOURCE_KEYS, s.usage.get k ≤ caps.get k)
    _ [] (by simp) ?_ ?_
  · intro t _ i _ hch k hk
    have h := ((can_host_iff t i caps).mp hch).2 k hk
    simpa [hostInst, addVec_get] using h
  · intro n i hi k hk
    simpa [newServer] using hfit' i hi k hk

/-! ### Structure of the optimizer fold -/

/-- The optimizer fold yields either its incumbent or an `ffd` plan of one of
the candidate orderings. -/
theorem foldl_pick_shape (instances : List Inst) (caps : ResVec) :
    ∀ (orders : List (List Res)) (acc : Option (List Server)) (plan : List Server),
      orders.foldl
        (fun best order =>
          match best with
          | none => some (ffd instances caps order)
          | some b => some (pickPlan caps b (ffd instances caps order))) acc = some plan →
      acc = some plan ∨ ∃ o ∈ orders, plan = ffd instances caps o
  | [], _, _, h => Or.inl h
  | o :: t, acc, plan, h => by
    rw [List.foldl_cons] at h
    rcases foldl_pick_shape instances caps t _ plan h with h' | ⟨o', ho', rfl⟩
    · cases acc with
      | none =>
        obtain rfl := Option.some.inj h'
        exact Or.inr ⟨o, List.mem_cons_self o t, rfl⟩
      | some b =>
        obtain rfl := Option.some.inj h'
        rcases pickPlan_eq_or caps b (ffd instances caps o) with hp | hp
        · exact Or.inl (by rw [hp])
        · exact Or.inr ⟨o, List.mem_cons_self o t, hp⟩
    · exact Or.inr ⟨o', List.mem_cons_of_mem o ho', rfl⟩

/-- Any plan returned by `best_plan` is the `ffd` plan of some dimension
ordering. -/
theorem best_plan_mem (instances : List Inst) (caps : ResVec) (sample : List (List Res))
    (plan : List Server) (h : best_plan instances caps sample = some plan) :
    ∃ o, plan = ffd instances caps o := by
  unfold best_plan at h
  rcases foldl_pick_shape instances caps _ none plan h with h' | ⟨o, _, rfl⟩
  · exact absurd h' (by simp)
  · exact ⟨o, rfl⟩

/-- When every candidate ordering produces the same plan, the optimizer fold
keeps it. -/
theorem foldl_pick_const (instances : List Inst) (caps : ResVec) (p : List Server) :
    ∀ (orders : List (List Res)),
      (∀ o ∈ orders, ffd instances caps o = p) →
      orders.foldl
        (fun best order =>
          match best with
          | none => some (ffd instances caps order)
          | some b => some (pickPlan caps b (ffd instances caps order))) (some p) = some p
  | [], _ => rfl
  | o :: t, hall => by
    have ho : ffd instances caps o = p := hall o (List.mem_cons_self o t)
    rw [List.foldl_cons]
    show t.foldl _ (some (pickPlan caps p (ffd instances caps o))) = some p
    rw [ho, pickPlan_self]
    exact foldl_pick_const instances caps p t fun o' ho' => hall o' (List.mem_cons_of_mem o ho')

/-- When every ordering yields the same plan, `best_plan` returns it. -/
theorem best_plan_const (instances : List Inst) (caps : ResVec) (sample : List (List Res))
    (p : List Server) (hall : ∀ o, ffd instances caps o = p) :
    best_plan instances caps sample = some p := by
  unfold best_plan
  rw [List.foldl_cons]
  show sample.foldl _ (some (ffd instances caps (crit_order instances caps))) = some p
  rw [hall]
  exact foldl_pick_const instances caps p sample fun o _ => hall o

/-- A single replica always lands alone on a fresh first server, whatever
the ordering. -/
theorem ffd_singleton (i : Inst) (caps : ResVec) (order : List Res) :
    ffd [i] caps order = [newServer 0 i] := rfl

/-! ### Stability of the replica sort -/

theorem filter_orderedInsert_of_key_eq (caps : ResVec) (order : List Res) (c : List ℚ)
    (a : Inst) (ha : sortKey caps order a = c) :
    ∀ l : List Inst,
      (l.orderedInsert (ffdRel caps order) a).filter
          (fun x => decide (sortKey caps order x = c))
        = a :: l.filter (fun x => decide (sortKey caps order x = c))
  | [] => by simp [List.orderedInsert, ha]
  | b :: l => by
    by_cases hr : ffdRel caps order a b
    · simp [List.orderedInsert, hr, ha]
    · have hbne : ¬ sortKey caps order b = c := by
        intro hbc
        exact hr (by unfold ffdRel; rw [hbc, ha]; exact tupleLe_refl c)
      simp [List.orderedInsert, hr, hbne,
        filter_orderedInsert_of_key_eq caps order c a ha l]

theorem filter_orderedInsert_of_key_ne (caps : ResVec) (order : List Res) (c : List ℚ)
    (a : Inst) (ha : ¬ sortKey caps order a = c) :
    ∀ l : List Inst,
      (l.orderedInsert (ffdRel caps order) a).filter
          (fun x => decide (sortKey caps order x = c))
        = l.filter (fun x => decide (sortKey caps order x = c))
  | [] => by simp [List.orderedInsert, ha]
  | b :: l => by
    by_cases hr : ffdRel caps order a b
    · simp [List.orderedInsert, hr, ha]
    · rw [List.orderedInsert, if_neg hr, List.filter_cons, List.filter_cons,
        filter_orderedInsert_of_key_ne caps order c a ha l]

/-- Stability: for every key value, the replicas carrying that key appear in
`instances_sorted` in their original input order. -/
theorem instances_sorted_stable (caps : ResVec) (order : List Res) (c : List ℚ) :
    ∀ instances : List Inst,
      (instances_sorted instances caps order).filter
          (fun x => decide (sortKey caps order x = c))
        = instances.filter (fun x => decide (sortKey caps order x = c))
  | [] => rfl
  | a :: l => by
    show ((List.insertionSort (ffdRel caps order) l).orderedInsert (ffdRel caps order) a).filter
        (fun x => decide (sortKey caps order x = c))
      = (a :: l).filter (fun x => decide (sortKey caps order x = c))
    have ih := instances_sorted_stable caps order c l
    unfold instances_sorted at ih
    by_cases ha : sortKey caps order a = c
    · rw [filter_orderedInsert_of_key_eq caps order c a ha]
      simp [ha, ih]
    · rw [filter_orderedInsert_of_key_ne caps order c a ha]
      simp [ha, ih]

/-! ### The tie-break metric of the optimizer -/

/-- The spare-capacity formula stated in the specification:
`Σ_d (capacity[d]·serverCount − Σ_server usage[d])`. -/
def spare_claim (caps : ResVec) (plan : List Server) : ℚ :=
  (RESOURCE_KEYS.map fun k =>
    caps.get k * (plan.length : ℚ) - (plan.map fun s => s.usage.get k).sum).sum

theorem spare_claim_eq (caps : ResVec) (plan : List Server) :
    spare_claim caps plan =
      spare caps plan +
        ((plan.length : ℚ) - 1) * (RESOURCE_KEYS.map fun k => caps.get k).sum := by
  simp only [spare_claim, spare, RESOURCE_KEYS, List.map_cons, List.map_nil, List.sum_cons,
    List.sum_nil]
  ring

/-- Conservation for the bare placement fold, used by both packers. -/
theorem pack_bind_perm (caps : ResVec) (l : List Inst) :
    List.Perm ((l.foldl (place caps) []).flatMap Server.instances) l := by
  simpa using foldl_place_bind caps l []

/-! ### Concrete scenario data -/

/-- A replica that fits the capacity in every dimension. -/
def c1wInst : Inst := ⟨"ok", ⟨1, 2, 50, 10, 50⟩⟩

def c1wCaps : ResVec := ⟨2, 4, 100, 50, 200⟩

/-- A replica whose memory demand `5` exceeds the memory capacity `4`. -/
def c1Inst : Inst := ⟨"svcM", ⟨1, 5, 0, 0, 0⟩⟩

def c1Caps : ResVec := ⟨2, 4, 100, 50, 200⟩

/-- Scenario B of the specification: two replicas of one service. -/
def c2wInst : Inst := ⟨"svc", ⟨1, 2, 50, 10, 50⟩⟩

def c2wCaps : ResVec := ⟨2, 4, 100, 50, 200⟩

/-- Scenario C of the specification: CPU demand `3` against CPU capacity `2`. -/
def c3Inst : Inst := ⟨"svc", ⟨3, 1, 1, 1, 1⟩⟩

def c3Caps : ResVec := ⟨2, 4, 100, 50, 200⟩

def c4srv : Server := ⟨"S1", ⟨1, 1, 1, 1, 1⟩, {"a"}, [⟨"a", ⟨1, 1, 1, 1, 1⟩⟩]⟩

def c4inst : Inst := ⟨"b", ⟨1, 1, 1, 1, 1⟩⟩

def c4caps : ResVec := ⟨2, 2, 2, 2, 2⟩

def c6caps : ResVec := ⟨10, 10, 10, 10, 10⟩

def c6srvA : Server := ⟨"S1", ⟨1, 1, 1, 1, 1⟩, {"a"}, [⟨"a", ⟨1, 1, 1, 1, 1⟩⟩]⟩

def c6srvB : Server := ⟨"S1", ⟨2, 2, 2, 2, 2⟩, {"b"}, [⟨"b", ⟨2, 2, 2, 2, 2⟩⟩]⟩

/-- A capacity vector with a negative CPU entry. -/
def c7caps : ResVec := ⟨-1, 1, 1, 1, 1⟩

def c7inst : Inst := ⟨"neg", ⟨1, 0, 0, 0, 0⟩⟩

def c9caps : ResVec := ⟨3, 3, 1, 1, 1⟩

/-- Four replicas (demands only on CPU and memory) that need three servers
under every dimension ordering. -/
def c9insts : List Inst :=
  [⟨"C", ⟨2, 2, 0, 0, 0⟩⟩, ⟨"A", ⟨1, 2, 0, 0, 0⟩⟩, ⟨"B", ⟨0, 1, 0, 0, 0⟩⟩,
    ⟨"A", ⟨0, 1, 0, 0, 0⟩⟩]

/-- The appended replica that lets the packing drop to two servers. -/
def c9r : Inst := ⟨"B", ⟨1, 0, 0, 0, 0⟩⟩

/-- The CPU-first ordering used as the sampled extra permutation. -/
def c9order : List Res := [Res.CPU, Res.Memoria, Res.Red, Res.Disco, Res.Almacenamiento]

/-! ### The claims -/

/-- C1 (amended): for every plan returned by `best_plan`, if every input
replica individually fits the capacity in every dimension, then every server
of the plan satisfies the capacity invariant `usage[k] ≤ capacity[k]` in
every dimension. -/
theorem C1_capacity_invariant :
    ∀ (instances : List Inst) (caps : ResVec) (sample : List (List Res)) (plan : List Server),
      (∀ i ∈ instances, ∀ k ∈ RESOURCE_KEYS, i.demand.get k ≤ caps.get k) →
      best_plan instances caps sample = some plan →
      ∀ s ∈ plan, ∀ k ∈ RESOURCE_KEYS, s.usage.get k ≤ caps.get k := by
  intro instances caps sample plan hfit hplan
  rcases best_plan_mem instances caps sample plan hplan with ⟨o, rfl⟩
  exact ffd_capacity_of_fits instances caps o hfit

/-- C1 (counterexample): a replica demanding memory `5` against capacity `4`
is still packed by `best_plan`, onto a server whose memory usage exceeds the
memory capacity, so the unconditional capacity invariant fails on the code. -/
theorem C1_capacity_counterexample :
    best_plan [c1Inst] c1Caps [] = some [newServer 0 c1Inst] ∧
      ¬ ((newServer 0 c1Inst).usage.get Res.Memoria ≤ c1Caps.get Res.Memoria) := by
  constructor
  · decide
  · decide

/-- C1 (witness). -/
theorem C1_capacity_witness :
    (newServer 0 c1wInst).usage.get Res.CPU ≤ c1wCaps.get Res.CPU :=
  C1_capacity_invariant [c1wInst] c1wCaps [] [newServer 0 c1wInst] (by decide) (by decide)
    (newServer 0 c1wInst) (by decide) Res.CPU (by decide)

/-- C2: in every plan produced by `ffd`, the assigned replicas of a server
carry pairwise distinct service names, the hosted-service set is exactly the
set of those names, and it has one element per assigned replica. -/
theorem C2_anti_affinity :
    ∀ (instances : List Inst) (caps : ResVec) (order : List Res),
      ∀ s ∈ ffd instances caps order,
        (s.instances.map Inst.servicio).Nodup ∧
          s.services = (s.instances.map Inst.servicio).toFinset ∧
          s.services.card = s.instances.length := by
  intro instances caps order s hs
  obtain ⟨hnd, hsv⟩ := ffd_services_inv instances caps order s hs
  refine ⟨hnd, hsv, ?_⟩
  rw [hsv, List.toFinset_card_of_nodup hnd, List.length_map]

/-- C2 (witness): scenario B — two replicas of one service are split onto two
servers, each hosting one distinct name. -/
theorem C2_anti_affinity_witness :
    ((newServer 0 c2wInst).instances.map Inst.servicio).Nodup ∧
      (newServer 0 c2wInst).services =
        ((newServer 0 c2wInst).instances.map Inst.servicio).toFinset ∧
      (newServer 0 c2wInst).services.card = (newServer 0 c2wInst).instances.length :=
  C2_anti_affinity [c2wInst, c2wInst] c2wCaps RESOURCE_KEYS (newServer 0 c2wInst) (by decide)

/-- C3 (amended): the code raises no `UnplaceableReplicaError`; a replica
whose demand exceeds capacity in some dimension is packed anyway (with
nonnegative demands it ends on a server whose usage exceeds capacity in that
dimension). -/
theorem C3_unplaceable_packed :
    ∀ (instances : List Inst) (caps : ResVec) (order : List Res) (r : Inst) (k : Res),
      r ∈ instances → caps.get k < r.demand.get k →
      (∀ i ∈ instances, 0 ≤ i.demand.get k) →
      ∃ s ∈ ffd instances caps order, r ∈ s.instances ∧ caps.get k < s.usage.get k := by
  intro instances caps order r k hr hbig hnn
  have hperm := ffd_bind_perm instances caps order
  have hrmem : r ∈ (ffd instances caps order).flatMap Server.instances :=
    hperm.mem_iff.mpr hr
  rcases List.mem_flatMap.mp hrmem with ⟨s, hs, hrs⟩
  refine ⟨s, hs, hrs, ?_⟩
  have husage := ffd_usage_eq_sum instances caps order s hs k
  have hbound : r.demand.get k ≤ (s.instances.map fun i => i.demand.get k).sum := by
    apply List.single_le_sum
    · intro x hx
      rcases List.mem_map.mp hx with ⟨j, hj, rfl⟩
      exact hnn j (ffd_mem_instances hs hj)
    · exact List.mem_map.mpr ⟨r, hrs, rfl⟩
  rw [husage]
  exact lt_of_lt_of_le hbig hbound

/-- C3 (counterexample): scenario C — CPU demand `3` against CPU capacity
`2`.  `best_plan` does not fail; it creates a new server for the replica. -/
theorem C3_no_error_counterexample :
    c3Caps.get Res.CPU < c3Inst.demand.get Res.CPU ∧
      best_plan [c3Inst] c3Caps [] = some [newServer 0 c3Inst] ∧
      c3Caps.get Res.CPU < (newServer 0 c3Inst).usage.get Res.CPU := by
  refine ⟨by decide, by decide, by decide⟩

/-- C3 (witness). -/
theorem C3_unplaceable_witness :
    ∃ s ∈ ffd [c3Inst] c3Caps RESOURCE_KEYS,
      c3Inst ∈ s.instances ∧ c3Caps.get Res.CPU < s.usage.get Res.CPU :=
  C3_unplaceable_packed [c3Inst] c3Caps RESOURCE_KEYS c3Inst Res.CPU (by decide) (by decide)
    (by decide)

/-- C4: `can_host` returns `false` when the replica's service is already
hosted; otherwise it returns `true` iff usage plus demand stays within
capacity in every dimension.  (The embedding is a pure function: the
arguments are immutable.) -/
theorem C4_can_host_spec :
    ∀ (s : Server) (i : Inst) (caps : ResVec),
      (i.servicio ∈ s.services → can_host s i caps = false) ∧
        (i.servicio ∉ s.services →
          (can_host s i caps = true ↔
            ∀ k ∈ RESOURCE_KEYS, s.usage.get k + i.demand.get k ≤ caps.get k)) := by
  intro s i caps
  constructor
  · intro h
    simp [can_host, h]
  · intro h
    rw [can_host_iff]
    simp [h]

/-- C4 (witness). -/
theorem C4_can_host_witness : can_host c4srv c4inst c4caps = true :=
  ((C4_can_host_spec c4srv c4inst c4caps).2 (by decide)).mpr (by decide)

/-- C5: the replica list handed to the placement loop of `ffd` is a
permutation of the input, sorted so that each replica's normalized-demand
key tuple is lexicographically no smaller than any later one (descending),
and replicas with equal keys keep their original input order (the sort is
stable). -/
theorem C5_sort_spec :
    ∀ (instances : List Inst) (caps : ResVec) (order : List Res),
      List.Perm (instances_sorted instances caps order) instances ∧
        List.Sorted (ffdRel caps order) (instances_sorted instances caps order) ∧
        ∀ c : List ℚ,
          (instances_sorted instances caps order).filter
              (fun x => decide (sortKey caps order x = c))
            = instances.filter (fun x => decide (sortKey caps order x = c)) := by
  intro instances caps order
  exact ⟨List.perm_insertionSort _ _, List.sorted_insertionSort _ _,
    fun c => instances_sorted_stable caps order c instances⟩

/-- C6: when the candidate plan has the same server count as the incumbent,
the comparator of `best_plan` keeps the candidate exactly when its total
spare capacity — in the specification's formula
`Σ_d (capacity[d]·serverCount − Σ_server usage[d])` — is strictly smaller,
and keeps the incumbent (first found) on ties. -/
theorem C6_tiebreak_spec :
    ∀ (caps : ResVec) (best plan : List Server),
      plan.length = best.length →
      pickPlan caps best plan =
        if spare_claim caps plan < spare_claim caps best then plan else best := by
  intro caps best plan hlen
  have hiff : spare caps plan < spare caps best ↔
      spare_claim caps plan < spare_claim caps best := by
    rw [spare_claim_eq, spare_claim_eq, hlen]
    exact (add_lt_add_iff_right _).symm
  unfold pickPlan
  rw [if_neg (by simp [hlen]), if_pos hlen]
  exact if_congr hiff rfl rfl

/-- C6 (witness): on equal server counts the plan with less spare capacity
(higher usage) is kept. -/
theorem C6_tiebreak_witness : pickPlan c6caps [c6srvA] [c6srvB] = [c6srvB] := by
  rw [C6_tiebreak_spec c6caps [c6srvA] [c6srvB] (by decide)]
  decide

/-- C7 (amended): the code rejects nothing — no `InvalidCapacityError`
exists.  With a negative capacity entry and a replica of positive demand in
that dimension, `best_plan` completes and returns a plan whose server
exceeds the capacity there. -/
theorem C7_no_validation :
    ∀ (i : Inst) (caps : ResVec) (sample : List (List Res)) (k : Res),
      caps.get k < 0 → 0 < i.demand.get k →
      best_plan [i] caps sample = some [newServer 0 i] ∧
        caps.get k < (newServer 0 i).usage.get k := by
  intro i caps sample k hneg hpos
  refine ⟨best_plan_const [i] caps sample [newServer 0 i] (fun o => ffd_singleton i caps o), ?_⟩
  exact lt_trans hneg hpos

/-- C7 (counterexample): a negative CPU capacity with positive CPU demand is
accepted by `best_plan`, which returns a plan instead of rejecting the
input. -/
theorem C7_no_validation_counterexample :
    c7caps.get Res.CPU < 0 ∧ 0 < c7inst.demand.get Res.CPU ∧
      best_plan [c7inst] c7caps [] = some [newServer 0 c7inst] := by
  refine ⟨by decide, by decide, by decide⟩

/-- C7 (witness). -/
theorem C7_no_validation_witness :
    best_plan [c7inst] c7caps [] = some [newServer 0 c7inst] ∧
      c7caps.get Res.CPU < (newServer 0 c7inst).usage.get Res.CPU :=
  C7_no_validation c7inst c7caps [] Res.CPU (by decide) (by decide)

/-- C8: the packers and the optimizer are deterministic — equal inputs
(replica list, capacity, dimension ordering, and for the optimizer the
sampled permutation list, which is a deterministic function of the seed)
yield equal plans. -/
theorem C8_deterministic :
    ∀ (i₁ i₂ : List Inst) (c₁ c₂ : ResVec) (o₁ o₂ : List Res)
      (s₁ s₂ : List (List Res)),
      i₁ = i₂ → c₁ = c₂ → o₁ = o₂ → s₁ = s₂ →
      ffd i₁ c₁ o₁ = ffd i₂ c₂ o₂ ∧
        first_fit_decreasing i₁ c₁ = first_fit_decreasing i₂ c₂ ∧
        best_plan i₁ c₁ s₁ = best_plan i₂ c₂ s₂ := by
  intro i₁ i₂ c₁ c₂ o₁ o₂ s₁ s₂ hi hc ho hs
  subst hi; subst hc; subst ho; subst hs
  exact ⟨rfl, rfl, rfl⟩

/-- C8 (witness). -/
theorem C8_deterministic_witness :
    ffd [c1wInst] c1wCaps RESOURCE_KEYS = ffd [c1wInst] c1wCaps RESOURCE_KEYS ∧
      first_fit_decreasing [c1wInst] c1wCaps = first_fit_decreasing [c1wInst] c1wCaps ∧
      best_plan [c1wInst] c1wCaps [] = best_plan [c1wInst] c1wCaps [] :=
  C8_deterministic [c1wInst] [c1wInst] c1wCaps c1wCaps RESOURCE_KEYS RESOURCE_KEYS [] []
    rfl rfl rfl rfl

/-- C9 (amended): appending a replica to the input list can strictly
decrease the number of servers of the plan returned by `best_plan` — the
optimizer is not monotone. -/
theorem C9_not_monotone :
    ∃ (instances : List Inst) (r : Inst) (caps : ResVec) (sample : List (List Res))
      (n m : ℕ),
      (best_plan instances caps sample).map List.length = some n ∧
        (best_plan (instances ++ [r]) caps sample).map List.length = some m ∧
        m < n :=
  ⟨c9insts, c9r, c9caps, [c9order], 3, 2, by decide, by decide, by decide⟩

/-- C9 (counterexample): with four replicas `best_plan` needs three servers,
and after appending a fifth replica it returns a two-server plan. -/
theorem C9_monotone_counterexample :
    (best_plan c9insts c9caps [c9order]).map List.length = some 3 ∧
      (best_plan (c9insts ++ [c9r]) c9caps [c9order]).map List.length = some 2 := by
  constructor
  · decide
  · decide

/-- C10: conservation — the concatenation of the per-server replica lists of
a packing run (either packer) is a permutation of the input list: no replica
is dropped or duplicated. -/
theorem C10_conservation :
    ∀ (instances : List Inst) (caps : ResVec) (order : List Res),
      List.Perm ((ffd instances caps order).flatMap Server.instances) instances ∧
        List.Perm ((first_fit_decreasing instances caps).flatMap Server.instances) instances := by
  intro instances caps order
  refine ⟨ffd_bind_perm instances caps order, ?_⟩
  unfold first_fit_decreasing
  exact (pack_bind_perm caps _).trans (List.perm_insertionSort fitRel instances)

end ServerPlan
